import Mathlib

/-!
Verification development for `minitel_gpt.py`: a shallow embedding of the
terminal transport / line discipline layer, the streaming formatter with
pagination, and the history store, together with theorems settling the
specification claims about them.

Python strings are modelled as `List Char`; Python byte values as `Nat`;
side effects on the transport as an explicit event trace.  Loops whose
termination is not structural take a fuel argument, always called with a
value that the loop cannot exhaust (each iteration strictly decreases the
quantity the fuel was computed from).
-/

set_option autoImplicit false

namespace MinitelGPT

/-- Python `str` is modelled as a list of Unicode characters. -/
abbrev Text := List Char

/-! ## Python primitives -/

/-- The whitespace set of Python `str.strip()` / `str.lstrip()`, restricted to
the ASCII whitespace characters that can occur in this byte-oriented
pipeline. -/
def isPySpace (c : Char) : Bool :=
  c = ' ' || c = '\t' || c = '\n' || c = '\x0d' || c = '\x0b' || c = '\x0c'

/-- Python `s.strip() == ""`: every character is whitespace. -/
def isBlank (s : Text) : Bool := s.all isPySpace

/-- Python `s.lstrip()`. -/
def lstrip (s : Text) : Text := s.dropWhile isPySpace

/-- Python slice-index arithmetic: a negative index counts from the end, and
`take`/`drop` clamp the result to `[0, n]` exactly as Python slices do. -/
def pyIdx (n : Nat) (i : Int) : Nat := (if i < 0 then (n : Int) + i else i).toNat

/-- Python `s[:i]` for a possibly negative `i`. -/
def pyTake (s : Text) (i : Int) : Text := s.take (pyIdx s.length i)

/-- Python `s[i:]` for a possibly negative `i`. -/
def pyDrop (s : Text) (i : Int) : Text := s.drop (pyIdx s.length i)

/-- Python `s.rfind(c)`: index of the last occurrence of `c`, or `-1`.
(To model `s.rfind(c, 0, hi)`, pass the sliced list `pyTake s hi`.) -/
def rfind (c : Char) (s : Text) : Int :=
  match s.reverse.findIdx? (· == c) with
  | none => -1
  | some j => ((s.length - 1 - j : Nat) : Int)

/-- Python `text.split("\n")` (always at least one part). -/
def splitNL : Text → List Text
  | [] => [[]]
  | c :: cs =>
    if c = '\n' then [] :: splitNL cs
    else
      match splitNL cs with
      | g :: gs => (c :: g) :: gs
      | [] => [[c]]

/-! ## The `textwrap` core used by `wrap_40`

`wrap_40` (src/minitel_gpt.py:73-82) calls
`textwrap.wrap(paragraph, width, break_long_words=True, break_on_hyphens=True)`.
That splits the munged paragraph into chunks (alternating word and whitespace
runs, with hyphen break points) and feeds them to `_wrap_chunks`.  We embed
`_wrap_chunks` and `_handle_long_word` faithfully; the chunk splitter
(`TextWrapper._split`, a regular expression) is abstracted as a `split`
parameter, because every property proved below either holds for all splitters
or assumes only what the regex does on the concrete input at hand. -/

/-- Character length of an assembled line (a list of chunks). -/
def lineLen (l : List Text) : Nat := (l.map List.length).sum

/-- The greedy filling loop of `textwrap.TextWrapper._wrap_chunks`: move chunks
onto the current line as long as they fit.  (CPython keeps the chunk list
reversed and pops from the end; we keep it in order and pop from the front.)
Returns (remaining chunks, cur_line, cur_len). -/
def greedy (width : Nat) : List Text → List Text → Nat → List Text × List Text × Nat
  | [], curLine, curLen => ([], curLine, curLen)
  | c :: rest, curLine, curLen =>
    if curLen + c.length ≤ width then greedy width rest (curLine ++ [c]) (curLen + c.length)
    else (c :: rest, curLine, curLen)

/-- `textwrap.TextWrapper._handle_long_word` with `break_long_words=True` and
`break_on_hyphens=True`: chop the head chunk so that it fits in the space left
on the current line, preferring to break just after a hyphen.  The caller
guarantees `curLen ≤ width`, so the `Nat` subtraction agrees with Python. -/
def handleLongWord (width : Nat) (chunks curLine : List Text) (curLen : Nat) :
    List Text × List Text :=
  match chunks with
  | [] => ([], curLine)
  | chunk :: rest =>
    let spaceLeft := if width < 1 then 1 else width - curLen
    let endIdx :=
      if spaceLeft < chunk.length then
        let hyphen := rfind '-' (chunk.take spaceLeft)
        if 0 < hyphen ∧ (chunk.take hyphen.toNat).any (fun c => c != '-') then
          hyphen.toNat + 1
        else spaceLeft
      else spaceLeft
    (chunk.drop endIdx :: rest, curLine ++ [chunk.take endIdx])

/-- The long-word check after the greedy loop
(`if chunks and len(chunks[-1]) > self.width`): applied to the greedy result
(remaining chunks, cur_line, cur_len). -/
def longPhase (width : Nat) (g : List Text × List Text × Nat) : List Text × List Text :=
  match g.1 with
  | c :: _ =>
    if width < c.length then handleLongWord width g.1 g.2.1 g.2.2
    else (g.1, g.2.1)
  | [] => ([], g.2.1)

/-- `drop_whitespace`: delete a trailing all-whitespace chunk from the finished
line (`if cur_line and cur_line[-1].strip() == ''`). -/
def dropTrailingWs (l : List Text) : List Text :=
  match l.getLast? with
  | some last => if isBlank last then l.dropLast else l
  | none => l

/-- One iteration of the outer `while chunks` loop of `_wrap_chunks`, after the
leading-whitespace drop: greedy fill, long-word handling, trailing-whitespace
drop.  Returns (remaining chunks, finished line as a chunk list). -/
def wrapStep (width : Nat) (chunks1 : List Text) : List Text × List Text :=
  ((longPhase width (greedy width chunks1 [] 0)).1,
   dropTrailingWs (longPhase width (greedy width chunks1 [] 0)).2)

/-- The outer `while chunks` loop of `_wrap_chunks` (with
`drop_whitespace=True`, empty indents, `max_lines=None`).  Lines are kept as
lists of chunks; joining a line gives the emitted text.  The fuel starts at
total characters + number of chunks + 1 and every loop iteration strictly
decreases that quantity, so it is never exhausted. -/
def wrapGo (width : Nat) : Nat → List Text → List (List Text) → List (List Text)
  | 0, _, lines => lines
  | _ + 1, [], lines => lines
  | fuel + 1, c0 :: rest0, lines =>
    let chunks1 := if isBlank c0 && !lines.isEmpty then rest0 else c0 :: rest0
    let s := wrapStep width chunks1
    wrapGo width fuel s.1 (if s.2.isEmpty then lines else lines ++ [s.2])

/-- Fuel bound for `wrapGo`. -/
def chunkMass (chunks : List Text) : Nat := (chunks.map (fun c => c.length + 1)).sum

/-- `textwrap.wrap(paragraph, width, break_long_words=True, break_on_hyphens=True)`
applied to a pre-split chunk list, with lines kept as chunk lists. -/
def wrapChunksL (width : Nat) (chunks : List Text) : List (List Text) :=
  wrapGo width (chunkMass chunks + 1) chunks []

/-- Emitted lines of `textwrap.wrap` on a pre-split chunk list. -/
def wrapChunks (width : Nat) (chunks : List Text) : List Text :=
  (wrapChunksL width chunks).map List.flatten

/-- `wrap_40` (src/minitel_gpt.py:73-82): split on explicit newlines, keep blank
source lines blank, word-wrap each paragraph.  `split` stands for the stdlib
word splitter `TextWrapper._split ∘ _munge_whitespace` (see above). -/
def wrap_40 (split : Text → List Text) (width : Nat) (text : Text) : List Text :=
  (splitNL text).foldl
    (fun lines paragraph =>
      if isBlank paragraph then lines ++ [[]]
      else
        let wrapped := wrapChunks width (split paragraph)
        lines ++ (if wrapped.isEmpty then [[]] else wrapped))
    []

/-! ## Transport traces and the display functions

A display call interacts with the transport through `write`, `writeln` and
`wait_keypress`; we record those calls as an event trace.  `pag` models
`minitel.is_pagination_enabled()`, constant during one call. -/

inductive Ev where
  | write (s : Text)
  | writeln (s : Text)
  | waitKey

/-- State threaded through a display call: the trace so far, the pagination
line counter `line_count`, and a ghost counter `totalInc` recording how many
times the source executed `line_count += 1` (observational only; it appears
nowhere in the control flow). -/
structure St where
  events : List Ev
  lineCount : Nat
  totalInc : Nat

def st0 : St := ⟨[], 0, 0⟩

def emitW (st : St) (s : Text) : St := { st with events := st.events ++ [Ev.write s] }

def emitWln (st : St) (s : Text) : St := { st with events := st.events ++ [Ev.writeln s] }

def emitWait (st : St) : St := { st with events := st.events ++ [Ev.waitKey] }

/-- The pagination pause text `"-- suite (touche) --"`. -/
def marker : Text := "-- suite (touche) --".toList

/-- The pause-marker erase sequence `"\r" + " " * 22 + "\r"`. -/
def eraseSeq : Text := ['\x0d'] ++ List.replicate 22 ' ' ++ ['\x0d']

/-- The pagination pause block, textually repeated at src/minitel_gpt.py:756-762,
814-819, 827-832 and 857-861: blank line, marker, blocking keypress, erase,
counter reset. -/
def pause (st : St) : St :=
  { emitW (emitWait (emitW (emitWln st []) marker)) eraseSeq with lineCount := 0 }

/-- `writeln` a line and execute `line_count += 1` (with its ghost counter). -/
def bumpLine (st : St) (line : Text) : St :=
  { emitWln st line with lineCount := st.lineCount + 1, totalInc := st.totalInc + 1 }

/-- A counted line emission: `writeln`, `line_count += 1`, pagination check —
the unit that follows every counted line in both display functions. -/
def bumpAndPage (pag : Bool) (pageLines : Nat) (st : St) (line : Text) : St :=
  if pag ∧ pageLines ≤ st.lineCount + 1 then pause (bumpLine st line)
  else bumpLine st line

/-- `display_wrapped` (src/minitel_gpt.py:746-762). -/
def display_wrapped (split : Text → List Text) (text : Text) (pageLines : Nat)
    (pag : Bool) : St :=
  (wrap_40 split 40 text).foldl (fun st line => bumpAndPage pag pageLines st line) st0

/-- The wrap loop of `display_streaming`'s newline branch
(src/minitel_gpt.py:795-819): hard-wrap `remaining` onto the current line.
Returns the state and the new `current_line_len`.  One fuel unit per loop
iteration; `len(remaining) + 2` always suffices, because the first iteration
resets `current_line_len` to 0 and every later one drops at least one
character. -/
def wrapRemaining (pag : Bool) (pageLines : Nat) : Nat → St → Nat → Text → St × Nat
  | 0, st, cll, _ => (st, cll)
  | fuel + 1, st, cll, remaining =>
    if remaining.isEmpty then (st, cll)
    else
      let spaceLeft : Int := 40 - (cll : Int)
      if (remaining.length : Int) ≤ spaceLeft then
        (emitW st remaining, cll + remaining.length)
      else
        let cutP := rfind ' ' (pyTake remaining spaceLeft)
        let cut := if cutP ≤ 0 then spaceLeft else cutP
        wrapRemaining pag pageLines fuel
          (bumpAndPage pag pageLines (emitW st (pyTake remaining cut)) [])
          0 (lstrip (pyDrop remaining cut))

/-- The wrap loop of `display_streaming`'s word-boundary branch
(src/minitel_gpt.py:840-861); it differs from `wrapRemaining` only in its
fitting case, which writes the segment plus a separator space. -/
def wrapSegment (pag : Bool) (pageLines : Nat) : Nat → St → Nat → Text → St × Nat
  | 0, st, cll, _ => (st, cll)
  | fuel + 1, st, cll, segment =>
    if segment.isEmpty then (st, cll)
    else
      let spaceLeft : Int := 40 - (cll : Int)
      if (segment.length : Int) ≤ spaceLeft then
        (emitW st (segment ++ [' ']), cll + segment.length + 1)
      else
        let cutP := rfind ' ' (pyTake segment spaceLeft)
        let cut := if cutP ≤ 0 then spaceLeft else cutP
        wrapSegment pag pageLines fuel
          (bumpAndPage pag pageLines (emitW st (pyTake segment cut)) [])
          0 (lstrip (pyDrop segment cut))

/-- The final flush loop of `display_streaming` (src/minitel_gpt.py:868-882).
Its `writeln` calls do not touch `line_count` and it performs no pagination
check. -/
def flushLoop : Nat → St → Nat → Text → St
  | 0, st, _, _ => st
  | fuel + 1, st, cll, buffer =>
    if buffer.isEmpty then st
    else
      let spaceLeft : Int := 40 - (cll : Int)
      if (buffer.length : Int) ≤ spaceLeft then emitW st buffer
      else
        let cutP := rfind ' ' (pyTake buffer spaceLeft)
        let cut := if cutP ≤ 0 then spaceLeft else cutP
        flushLoop fuel (emitWln (emitW st (pyTake buffer cut)) []) 0
          (lstrip (pyDrop buffer cut))

/-- The `while buffer` chunk-consumption loop of `display_streaming`
(src/minitel_gpt.py:782-865).  Returns (state, current_line_len, leftover
buffer).  Every iteration consumes at least one buffered character, so
`len(buffer) + 1` fuel always suffices. -/
def processBuffer (pag : Bool) (pageLines : Nat) : Nat → St → Nat → Text → St × Nat × Text
  | 0, st, cll, buffer => (st, cll, buffer)
  | fuel + 1, st, cll, buffer =>
    if buffer.isEmpty then (st, cll, buffer)
    else if '\n' ∈ buffer then
      let idx := buffer.indexOf '\n'
      let segment := buffer.take idx
      let rest := buffer.drop (idx + 1)
      let r :=
        if cll + segment.length ≤ 40 then (emitW st segment, cll + segment.length)
        else wrapRemaining pag pageLines (segment.length + 2) st cll segment
      processBuffer pag pageLines fuel (bumpAndPage pag pageLines r.1 []) 0 rest
    else if ' ' ∈ buffer ∧ 10 < buffer.length then
      let idxI := rfind ' ' buffer
      let segment := pyTake buffer idxI
      let rest := pyDrop buffer (idxI + 1)
      let r := wrapSegment pag pageLines (segment.length + 2) st cll segment
      processBuffer pag pageLines fuel r.1 r.2 rest
    else (st, cll, buffer)

/-- Accumulator of `display_streaming`: trace state, `current_line_len`,
pending `buffer`, and `full_text`. -/
structure SAcc where
  st : St
  cll : Nat
  buffer : Text
  full : Text

/-- `display_streaming` (src/minitel_gpt.py:765-884) over the list of chunks
produced by the generator.  Returns the transport trace and `full_text`. -/
def display_streaming (pag : Bool) (pageLines : Nat) (chunks : List Text) : St × Text :=
  let acc := chunks.foldl
    (fun (a : SAcc) chunk =>
      let buffer := a.buffer ++ chunk
      let p := processBuffer pag pageLines (buffer.length + 1) a.st a.cll buffer
      ⟨p.1, p.2.1, p.2.2, a.full ++ chunk⟩)
    ⟨st0, 0, [], []⟩
  let st1 :=
    if acc.buffer.isEmpty then acc.st
    else flushLoop (acc.buffer.length + 2) acc.st acc.cll acc.buffer
  (emitWln st1 [], acc.full)

/-! ## Observations on traces -/

/-- Character stream put on the wire by a trace (`SerialMinitel.writeln` sends
the line followed by CR LF). -/
def flatEv : Ev → Text
  | Ev.write s => s
  | Ev.writeln s => s ++ ['\x0d', '\n']
  | Ev.waitKey => []

def flatten (evs : List Ev) : Text := (evs.map flatEv).flatten

/-- Column tracking: a carriage return or line feed returns to column 0,
anything else advances by one. -/
def colStep (col : Nat) (c : Char) : Nat := if c = '\x0d' || c = '\n' then 0 else col + 1

/-- Column position after emitting `s` starting from column `col`. -/
def colAfter (col : Nat) : Text → Nat
  | [] => col
  | c :: cs => colAfter (colStep col c) cs

/-- Maximum column reached at any point while emitting `s` from column `col`. -/
def colMax (col : Nat) : Text → Nat
  | [] => col
  | c :: cs => max col (colMax (colStep col c) cs)

def isWaitEv : Ev → Bool
  | Ev.waitKey => true
  | _ => false

def isWlnEv : Ev → Bool
  | Ev.writeln _ => true
  | _ => false

/-- Number of pagination pauses in a trace (each pause block blocks on exactly
one `wait_keypress`). -/
def countWait (evs : List Ev) : Nat := (evs.filter isWaitEv).length

/-- Number of `writeln` calls in a trace. -/
def countWln (evs : List Ev) : Nat := (evs.filter isWlnEv).length

/-- Trace well-formedness for the column bound: the carriage sits at column 0
after the trace, and no point of the trace ever passed column 40. -/
def ColOK (st : St) : Prop :=
  colAfter 0 (flatten st.events) = 0 ∧ colMax 0 (flatten st.events) ≤ 40

/-- Pagination bookkeeping invariant: with page height `P`, the number of
pauses so far is `totalInc / P` and the line counter is `totalInc % P`. -/
def Inv (P : Nat) (st : St) : Prop :=
  countWait st.events = st.totalInc / P ∧ st.lineCount = st.totalInc % P

/-! ## Serial transport and line discipline -/

/-- `sanitize_latin1` (src/minitel_gpt.py:68-70): encoding to latin-1 with
`errors="replace"` turns every character above U+00FF into `?`. -/
def sanitize_latin1 (t : Text) : Text := t.map (fun c => if c.toNat ≤ 255 then c else '?')

/-- `SerialMinitel.write` (src/minitel_gpt.py:361-371): the byte stream put on
the wire (the char-delay branch sends the same bytes one at a time).  A no-op
when the port is not open. -/
def serialWrite (isOpen : Bool) (t : Text) : Text :=
  if isOpen then sanitize_latin1 t else []

/-- `SerialMinitel.writeln` (src/minitel_gpt.py:373-377). -/
def serialWriteln (isOpen : Bool) (t : Text) : Text :=
  serialWrite isOpen (t ++ ['\x0d', '\n'])

/-- `SerialMinitel.read_byte` (src/minitel_gpt.py:392-407) over the queue of
pending input bytes: `none` (timeout) when the port is closed or no byte is
pending. -/
def serialReadByte (isOpen : Bool) (queue : List Nat) : Option Nat × List Nat :=
  if isOpen then
    match queue with
    | [] => (none, [])
    | b :: rest => (some b, rest)
  else (none, queue)

/-- The destructive backspace echo `"\x08 \x08"`. -/
def bsSeq : Text := ['\x08', ' ', '\x08']

/-- The polling loop of `SerialMinitel.read_line` (src/minitel_gpt.py:417-461).
Timing is abstracted as: every pending byte arrives promptly, and once the
queue is empty the overall deadline elapses.  Returns (submitted line or
`none`, unconsumed bytes, bytes echoed back to the terminal). -/
def rlLoop (echo : Bool) : List Nat → Text → Text → Option Text × List Nat × Text
  | [], buf, out =>
    (if buf.isEmpty then none else some buf, [], out)
  | b :: rest, buf, out =>
    if b = 0x0d ∨ b = 0x0a then
      (some buf, rest.tail, out ++ if echo then ['\x0d', '\n'] else [])
    else if b = 0x08 ∨ b = 0x7f then
      if buf.isEmpty then rlLoop echo rest buf out
      else rlLoop echo rest buf.dropLast (out ++ if echo then bsSeq else [])
    else if 32 ≤ b ∧ b < 127 then
      rlLoop echo rest (buf ++ [Char.ofNat b]) (out ++ if echo then [Char.ofNat b] else [])
    else if 128 ≤ b then
      rlLoop echo rest (buf ++ [Char.ofNat b]) (out ++ if echo then [Char.ofNat b] else [])
    else rlLoop echo rest buf out

/-- `SerialMinitel.read_line` (src/minitel_gpt.py:409-461). -/
def serialReadLine (isOpen echo : Bool) (bytes : List Nat) : Option Text × List Nat × Text :=
  if isOpen then rlLoop echo bytes [] [] else (none, bytes, [])

/-- Python `input()` over a byte stream (text-mode stdin with universal
newlines: `\n`, `\r` and `\r\n` all terminate a line).  Returns `none` exactly
when end-of-file is hit with nothing read (`EOFError`); the caller at
src/minitel_gpt.py:528-534 maps that to `None`. -/
def pyInput : List Nat → Text → Option Text × List Nat
  | [], acc => (if acc.isEmpty then none else some acc.reverse, [])
  | b :: rest, acc =>
    if b = 0x0a then (some acc.reverse, rest)
    else if b = 0x0d then
      match rest with
      | 0x0a :: r2 => (some acc.reverse, r2)
      | _ => (some acc.reverse, rest)
    else pyInput rest (Char.ofNat b :: acc)

/-- `SimulatedMinitel.read_line` (src/minitel_gpt.py:527-534): delegates to
`input()`; the `timeout` and `echo` arguments and the open flag are ignored. -/
def simReadLine (bytes : List Nat) : Option Text × List Nat := pyInput bytes []

/-- `SimulatedMinitel.write` (src/minitel_gpt.py:503-504): prints regardless of
the open flag (the flag parameter is deliberately unused, as in the source). -/
def simWrite (_isOpen : Bool) (t : Text) : Text := sanitize_latin1 t

/-- `SimulatedMinitel.read_byte` (src/minitel_gpt.py:518-525): reads stdin
regardless of the open flag. -/
def simReadByte (_isOpen : Bool) (queue : List Nat) : Option Nat × List Nat :=
  match queue with
  | [] => (none, [])
  | b :: rest => (some b, rest)

/-! ## History store -/

structure Msg where
  role : Text
  content : Text
deriving DecidableEq

def totalChars (ms : List Msg) : Nat := (ms.map (fun m => m.content.length)).sum

/-- First loop of `HistoryStore._trim` (src/minitel_gpt.py:188-190): pop the
oldest message while more than `max_turns` user/assistant pairs are stored. -/
def trimTurns (maxTurns : Nat) : List Msg → List Msg
  | [] => []
  | m :: rest =>
    if maxTurns * 2 < (m :: rest).length then trimTurns maxTurns rest else m :: rest

/-- Second loop of `_trim` (src/minitel_gpt.py:191-195): pop the oldest message
while the running character total exceeds `max_chars`. -/
def trimChars (maxChars : Nat) : Nat → List Msg → List Msg
  | _, [] => []
  | total, m :: rest =>
    if maxChars < total then trimChars maxChars (total - m.content.length) rest
    else m :: rest

/-- `HistoryStore._trim` (src/minitel_gpt.py:187-195). -/
def trim (maxTurns maxChars : Nat) (ms : List Msg) : List Msg :=
  let t1 := trimTurns maxTurns ms
  trimChars maxChars (totalChars t1) t1

/-- `HistoryStore.add` (src/minitel_gpt.py:172-174). -/
def addMsg (maxTurns maxChars : Nat) (ms : List Msg) (role content : Text) : List Msg :=
  trim maxTurns maxChars (ms ++ [⟨role, content⟩])

/-! ## A heap of list objects, for the aliasing claim about `get_messages`

Python lists are mutable objects; to state that `list(self.messages)` is a
fresh copy we model list objects as references into a heap. -/

structure Heap where
  next : Nat
  vals : Nat → List Msg

/-- Allocate a fresh list object holding `v`. -/
def alloc (h : Heap) (v : List Msg) : Nat × Heap :=
  (h.next, ⟨h.next + 1, fun r => if r = h.next then v else h.vals r⟩)

/-- The `HistoryStore` as far as aliasing is concerned: a reference to its
`messages` list. -/
structure HStore where
  msgsRef : Nat

/-- `HistoryStore.get_messages` (src/minitel_gpt.py:184-185):
`list(self.messages)` allocates a fresh list object with the same elements. -/
def get_messages (s : HStore) (h : Heap) : Nat × Heap :=
  alloc h (h.vals s.msgsRef)

/-- An arbitrary in-place mutation (append, remove, reorder, ...) of the list
object `r`. -/
def heapWrite (h : Heap) (r : Nat) (f : List Msg → List Msg) : Heap :=
  ⟨h.next, fun x => if x = r then f (h.vals x) else h.vals x⟩

/-! ## Characterisations and concrete inputs used by the theorems -/

/-- The buffer assembled by the serial line discipline over a terminator-free
byte sequence: backspace and delete pop the last character, printable and
extended bytes are appended, everything else is ignored.  Used to state the
deadline outcome of `read_line`. -/
def disc : List Nat → Text → Text
  | [], buf => buf
  | b :: rest, buf =>
    if b = 0x08 ∨ b = 0x7f then disc rest buf.dropLast
    else if 32 ≤ b ∧ b < 127 then disc rest (buf ++ [Char.ofNat b])
    else if 128 ≤ b then disc rest (buf ++ [Char.ofNat b])
    else disc rest buf

/-- A 45-character unbroken token, and the two pieces of its hard split. -/
def tok45 : Text := List.replicate 45 'a'

def tok40 : Text := List.replicate 40 'a'

def tok5 : Text := List.replicate 5 'a'

/-- The word splitter restricted to inputs that are a single chunk: on a
paragraph with no whitespace and no hyphens, the stdlib regex returns the
paragraph itself as the only chunk. -/
def idSplit : Text → List Text := fun p => [p]

/-- Streaming chunk whose word-boundary flush exactly fills the line: forty
characters followed by a space and one more letter. -/
def c1Chunk : Text := List.replicate 40 'a' ++ [' ', 'b']

/-- Two source lines, for the pagination count. -/
def c2Text : Text := ['a', '\n', 'b']

/-- Bytes A, B, delete, C, line feed. -/
def c3Bytes : List Nat := [0x41, 0x42, 0x7f, 0x43, 0x0a]

/-- Bytes A, B, delete, C, carriage return (the spec scenario for echo). -/
def c6Bytes : List Nat := [0x41, 0x42, 0x7f, 0x43, 0x0d]

/-! ## Lemmas: the wrapping core never overfills a line -/

lemma lineLen_nil : lineLen [] = 0 := rfl

lemma lineLen_cons (c : Text) (l : List Text) : lineLen (c :: l) = c.length + lineLen l := by
  simp [lineLen]

lemma lineLen_append (l : List Text) (c : Text) :
    lineLen (l ++ [c]) = lineLen l + c.length := by
  simp [lineLen]

lemma greedy_le (width : Nat) :
    ∀ (chunks cl : List Text) (n : Nat), n ≤ width → (greedy width chunks cl n).2.2 ≤ width := by
  intro chunks
  induction chunks with
  | nil => intro cl n h; simpa [greedy] using h
  | cons c rest ih =>
    intro cl n h
    by_cases hc : n + c.length ≤ width
    · simpa [greedy, hc] using ih (cl ++ [c]) (n + c.length) hc
    · simpa [greedy, hc] using h

lemma greedy_sum (width : Nat) :
    ∀ (chunks cl : List Text) (n : Nat), lineLen cl = n →
      lineLen (greedy width chunks cl n).2.1 = (greedy width chunks cl n).2.2 := by
  intro chunks
  induction chunks with
  | nil => intro cl n h; simpa [greedy] using h
  | cons c rest ih =>
    intro cl n h
    by_cases hc : n + c.length ≤ width
    · simpa [greedy, hc] using ih (cl ++ [c]) (n + c.length) (by simp [lineLen_append, h])
    · simpa [greedy, hc] using h

lemma rfind_pos_le (c : Char) (s : Text) (h : 0 < rfind c s) :
    rfind c s ≤ (s.length : Int) - 1 := by
  cases hf : s.reverse.findIdx? (· == c) with
  | none =>
    have hv : rfind c s = -1 := by unfold rfind; rw [hf]
    omega
  | some j =>
    have hv : rfind c s = ((s.length - 1 - j : Nat) : Int) := by unfold rfind; rw [hf]
    rw [hv] at h ⊢
    omega

lemma handleLongWord_sum (width : Nat) (hw : 1 ≤ width) (chunks cl : List Text) (n : Nat)
    (hn : n ≤ width) (hcl : lineLen cl = n) :
    lineLen (handleLongWord width chunks cl n).2 ≤ width := by
  cases chunks with
  | nil => simp only [handleLongWord]; omega
  | cons chunk rest =>
    have hnw : ¬ width < 1 := by omega
    simp only [handleLongWord, if_neg hnw]
    by_cases h1 : width - n < chunk.length
    · simp only [if_pos h1]
      by_cases h2 : 0 < rfind '-' (chunk.take (width - n)) ∧
          (chunk.take (rfind '-' (chunk.take (width - n))).toNat).any (fun c => c != '-')
      · simp only [if_pos h2]
        have hle := rfind_pos_le '-' (chunk.take (width - n)) h2.1
        have hlen : (chunk.take (width - n)).length ≤ width - n := by
          simp [List.length_take]
        have hap := lineLen_append cl
          (chunk.take ((rfind '-' (chunk.take (width - n))).toNat + 1))
        have htk : (chunk.take ((rfind '-' (chunk.take (width - n))).toNat + 1)).length
            ≤ (rfind '-' (chunk.take (width - n))).toNat + 1 := by
          simp [List.length_take]
        omega
      · simp only [if_neg h2]
        have hap := lineLen_append cl (chunk.take (width - n))
        have htk : (chunk.take (width - n)).length ≤ width - n := by
          simp [List.length_take]
        omega
    · simp only [if_neg h1]
      have hap := lineLen_append cl (chunk.take (width - n))
      have htk : (chunk.take (width - n)).length ≤ width - n := by
        simp [List.length_take]
      omega

lemma longPhase_le (width : Nat) (hw : 1 ≤ width) (g : List Text × List Text × Nat)
    (hsum : lineLen g.2.1 = g.2.2) (hle : g.2.2 ≤ width) :
    lineLen (longPhase width g).2 ≤ width := by
  obtain ⟨gc, gl, gn⟩ := g
  cases gc with
  | nil => simp only [longPhase] at *; omega
  | cons c tl =>
    simp only [longPhase] at *
    by_cases hc : width < c.length
    · simpa [hc] using handleLongWord_sum width hw (c :: tl) gl gn (by omega) hsum
    · simp only [if_neg hc]; omega

lemma lineLen_dropLast_le (l : List Text) : lineLen l.dropLast ≤ lineLen l := by
  induction l with
  | nil => simp [lineLen]
  | cons c tl ih =>
    cases tl with
    | nil => simp [lineLen]
    | cons d tl2 =>
      rw [List.dropLast_cons₂, lineLen_cons, lineLen_cons]
      exact Nat.add_le_add_left ih _

lemma dropTrailingWs_le (l : List Text) : lineLen (dropTrailingWs l) ≤ lineLen l := by
  unfold dropTrailingWs
  cases l.getLast? with
  | none => simp
  | some last =>
    by_cases h : isBlank last
    · simpa [h] using lineLen_dropLast_le l
    · simp [h]

lemma wrapStep_le (width : Nat) (hw : 1 ≤ width) (chunks1 : List Text) :
    lineLen (wrapStep width chunks1).2 ≤ width := by
  unfold wrapStep
  have hsum := greedy_sum width chunks1 [] 0 (by simp [lineLen])
  have hle := greedy_le width chunks1 [] 0 (Nat.zero_le _)
  exact le_trans (dropTrailingWs_le _) (longPhase_le width hw _ hsum hle)

/-! ## Lemmas: words are never broken unless a single word exceeds the width -/

lemma greedy_mem_chunks (width : Nat) :
    ∀ (chunks cl : List Text) (n : Nat) (x : Text),
      x ∈ (greedy width chunks cl n).1 → x ∈ chunks := by
  intro chunks
  induction chunks with
  | nil => intro cl n x hx; exact hx
  | cons c rest ih =>
    intro cl n x hx
    by_cases hc : n + c.length ≤ width
    · simp only [greedy, if_pos hc] at hx
      exact List.mem_cons_of_mem c (ih _ _ x hx)
    · simpa only [greedy, if_neg hc] using hx

lemma greedy_mem_line (width : Nat) :
    ∀ (chunks cl : List Text) (n : Nat) (x : Text),
      x ∈ (greedy width chunks cl n).2.1 → x ∈ cl ∨ x ∈ chunks := by
  intro chunks
  induction chunks with
  | nil => intro cl n x hx; exact Or.inl hx
  | cons c rest ih =>
    intro cl n x hx
    by_cases hc : n + c.length ≤ width
    · simp only [greedy, if_pos hc] at hx
      rcases ih (cl ++ [c]) (n + c.length) x hx with h | h
      · rcases List.mem_append.1 h with h2 | h2
        · exact Or.inl h2
        · exact Or.inr (by rw [List.mem_singleton.1 h2]; exact List.mem_cons_self c rest)
      · exact Or.inr (List.mem_cons_of_mem c h)
    · simp only [greedy, if_neg hc] at hx
      exact Or.inl hx

lemma longPhase_eq (width : Nat) (g : List Text × List Text × Nat)
    (h : ∀ c ∈ g.1, c.length ≤ width) : longPhase width g = (g.1, g.2.1) := by
  obtain ⟨gc, gl, gn⟩ := g
  cases gc with
  | nil => simp [longPhase]
  | cons c tl =>
    have hc : ¬ width < c.length := by
      have := h c (List.mem_cons_self c tl)
      omega
    simp [longPhase, hc]

lemma dropTrailingWs_subset (l : List Text) : ∀ x ∈ dropTrailingWs l, x ∈ l := by
  intro x hx
  unfold dropTrailingWs at hx
  cases hl : l.getLast? with
  | none => simpa only [hl] using hx
  | some last =>
    simp only [hl] at hx
    by_cases hb : isBlank last
    · rw [if_pos hb] at hx
      exact (List.dropLast_sublist _).subset hx
    · rw [if_neg hb] at hx; exact hx

lemma wrapStep_mem (width : Nat) (chunks1 : List Text)
    (hall : ∀ c ∈ chunks1, c.length ≤ width) :
    (∀ x ∈ (wrapStep width chunks1).1, x ∈ chunks1) ∧
    (∀ s ∈ (wrapStep width chunks1).2, s ∈ chunks1) := by
  have hg1 : ∀ c ∈ (greedy width chunks1 [] 0).1, c.length ≤ width := by
    intro c hc; exact hall c (greedy_mem_chunks width chunks1 [] 0 c hc)
  have heq := longPhase_eq width (greedy width chunks1 [] 0) hg1
  unfold wrapStep
  rw [heq]
  constructor
  · intro x hx; exact greedy_mem_chunks width chunks1 [] 0 x hx
  · intro s hs
    have hmem := dropTrailingWs_subset _ s hs
    rcases greedy_mem_line width chunks1 [] 0 s hmem with h | h
    · exact absurd h (List.not_mem_nil s)
    · exact h

lemma wrapGo_mem (width : Nat) (orig : List Text) (horig : ∀ c ∈ orig, c.length ≤ width) :
    ∀ (fuel : Nat) (chunks : List Text) (lines : List (List Text)),
      (∀ c ∈ chunks, c ∈ orig) →
      (∀ l ∈ lines, ∀ s ∈ l, s ∈ orig) →
      ∀ l ∈ wrapGo width fuel chunks lines, ∀ s ∈ l, s ∈ orig := by
  intro fuel
  induction fuel with
  | zero => intro chunks lines hc hl l hmem; exact hl l (by simpa [wrapGo] using hmem)
  | succ fuel ih =>
    intro chunks lines hc hl l hmem
    cases chunks with
    | nil => exact hl l (by simpa [wrapGo] using hmem)
    | cons c0 rest0 =>
      rw [wrapGo] at hmem
      have hc1 : ∀ c ∈ (if isBlank c0 && !lines.isEmpty then rest0 else c0 :: rest0),
          c ∈ orig := by
        intro c hmm
        by_cases hb : isBlank c0 && !lines.isEmpty
        · rw [if_pos hb] at hmm; exact hc c (List.mem_cons_of_mem c0 hmm)
        · rw [if_neg hb] at hmm; exact hc c hmm
      have hall : ∀ c ∈ (if isBlank c0 && !lines.isEmpty then rest0 else c0 :: rest0),
          c.length ≤ width := fun c h => horig c (hc1 c h)
      have hws := wrapStep_mem width _ hall
      refine ih _ _ (fun c h => hc1 c (hws.1 c h)) ?_ l hmem
      intro l2 hl2
      by_cases he : (wrapStep width
          (if isBlank c0 && !lines.isEmpty then rest0 else c0 :: rest0)).2.isEmpty
      · rw [if_pos he] at hl2; exact hl l2 hl2
      · rw [if_neg he] at hl2
        rcases List.mem_append.1 hl2 with h2 | h2
        · exact hl l2 h2
        · rw [List.mem_singleton.1 h2]
          intro s hs; exact hc1 s (hws.2 s hs)

lemma wrapGo_bound (width : Nat) (hw : 1 ≤ width) :
    ∀ (fuel : Nat) (chunks : List Text) (lines : List (List Text)),
      (∀ l ∈ lines, lineLen l ≤ width) →
      ∀ l ∈ wrapGo width fuel chunks lines, lineLen l ≤ width := by
  intro fuel
  induction fuel with
  | zero => intro chunks lines h l hl; exact h l (by simpa [wrapGo] using hl)
  | succ fuel ih =>
    intro chunks lines h l hl
    cases chunks with
    | nil => exact h l (by simpa [wrapGo] using hl)
    | cons c0 rest0 =>
      rw [wrapGo] at hl
      refine ih _ _ ?_ l hl
      intro l2 hl2
      by_cases he : (wrapStep width (if isBlank c0 && !lines.isEmpty then rest0
          else c0 :: rest0)).2.isEmpty
      · rw [if_pos he] at hl2; exact h l2 hl2
      · rw [if_neg he] at hl2
        rcases List.mem_append.1 hl2 with h2 | h2
        · exact h l2 h2
        · rw [List.mem_singleton.1 h2]; exact wrapStep_le width hw _

lemma wrapChunks_bound (width : Nat) (hw : 1 ≤ width) (chunks : List Text) :
    ∀ s ∈ wrapChunks width chunks, s.length ≤ width := by
  intro s hs
  rcases List.mem_map.1 hs with ⟨l, hl, rfl⟩
  have := wrapGo_bound width hw (chunkMass chunks + 1) chunks [] (by simp) l hl
  simpa [lineLen, List.length_flatten] using this

lemma wrap_40_bound (split : Text → List Text) (text : Text) :
    ∀ l ∈ wrap_40 split 40 text, l.length ≤ 40 := by
  unfold wrap_40
  generalize splitNL text = ps
  have h : ∀ (ps : List Text) (acc : List Text), (∀ l ∈ acc, l.length ≤ 40) →
      ∀ l ∈ ps.foldl (fun lines paragraph =>
        if isBlank paragraph then lines ++ [[]]
        else
          let wrapped := wrapChunks 40 (split paragraph)
          lines ++ (if wrapped.isEmpty then [[]] else wrapped)) acc, l.length ≤ 40 := by
    intro ps
    induction ps with
    | nil => intro acc hacc l hl; exact hacc l hl
    | cons p ps ih =>
      intro acc hacc l hl
      simp only [List.foldl_cons] at hl
      refine ih _ ?_ l hl
      intro l2 hl2
      by_cases hb : isBlank p
      · rw [if_pos hb] at hl2
        rcases List.mem_append.1 hl2 with h2 | h2
        · exact hacc l2 h2
        · rw [List.mem_singleton.1 h2]; simp
      · rw [if_neg hb] at hl2
        rcases List.mem_append.1 hl2 with h2 | h2
        · exact hacc l2 h2
        · by_cases he : (wrapChunks 40 (split p)).isEmpty
          · rw [if_pos he] at h2; rw [List.mem_singleton.1 h2]; simp
          · rw [if_neg he] at h2
            exact wrapChunks_bound 40 (by omega) (split p) l2 h2
  exact h ps [] (by simp)

/-! ## Lemmas: column tracking over traces -/

lemma colStep_le (col : Nat) (c : Char) : colStep col c ≤ col + 1 := by
  unfold colStep; split <;> omega

lemma colAfter_append (col : Nat) (s t : Text) :
    colAfter col (s ++ t) = colAfter (colAfter col s) t := by
  induction s generalizing col with
  | nil => simp [colAfter]
  | cons c cs ih => simp [colAfter, ih]

lemma colMax_start_le (col : Nat) (s : Text) : col ≤ colMax col s := by
  induction s generalizing col with
  | nil => simp [colMax]
  | cons c cs ih => simp [colMax]

lemma colMax_append (col : Nat) (s t : Text) :
    colMax col (s ++ t) = max (colMax col s) (colMax (colAfter col s) t) := by
  induction s generalizing col with
  | nil =>
    simp only [List.nil_append, colMax, colAfter]
    exact (max_eq_right (colMax_start_le col t)).symm
  | cons c cs ih =>
    have e1 : colMax col ((c :: cs) ++ t) = max col (colMax (colStep col c) (cs ++ t)) := rfl
    have e2 : colMax col (c :: cs) = max col (colMax (colStep col c) cs) := rfl
    have e3 : colAfter col (c :: cs) = colAfter (colStep col c) cs := rfl
    rw [e1, ih, e2, e3, max_assoc]

lemma colMax_le (col : Nat) (s : Text) : colMax col s ≤ col + s.length := by
  induction s generalizing col with
  | nil => simp [colMax]
  | cons c cs ih =>
    have h1 := ih (colStep col c)
    have h2 := colStep_le col c
    simp only [colMax, List.length_cons]
    exact max_le (by omega) (by omega)

lemma colAfter_le (col : Nat) (s : Text) : colAfter col s ≤ col + s.length := by
  induction s generalizing col with
  | nil => simp [colAfter]
  | cons c cs ih =>
    have h1 := ih (colStep col c)
    have h2 := colStep_le col c
    simp only [colAfter, List.length_cons]
    omega

lemma colAfter_crlf (col : Nat) : colAfter col ['\x0d', '\n'] = 0 := by
  simp [colAfter, colStep]

lemma colMax_crlf (col : Nat) : colMax col ['\x0d', '\n'] = col := by
  simp [colMax, colStep]

lemma flatten_append (a b : List Ev) : flatten (a ++ b) = flatten a ++ flatten b := by
  simp [flatten]

lemma colOK_st0 : ColOK st0 := by
  constructor <;> simp [st0, flatten, colAfter, colMax]

lemma colOK_emitWln (st : St) (line : Text) (h : ColOK st) (hl : line.length ≤ 40) :
    ColOK (emitWln st line) := by
  obtain ⟨h0, h1⟩ := h
  have hfl : flatten (emitWln st line).events
      = flatten st.events ++ (line ++ ['\x0d', '\n']) := by
    simp [emitWln, flatten_append, flatten, flatEv]
  constructor
  · rw [hfl, colAfter_append, h0, colAfter_append, colAfter_crlf]
  · rw [hfl, colMax_append, h0, colMax_append, colMax_crlf]
    have ha := colMax_le 0 line
    have hb := colAfter_le 0 line
    exact max_le h1 (max_le (by omega) (by omega))

/-- The character stream appended to the trace by a pagination pause. -/
lemma flatten_pause (st : St) :
    flatten (pause st).events = flatten st.events ++
      (['\x0d', '\n'] ++ (marker ++ eraseSeq)) := by
  simp [pause, emitW, emitWln, emitWait, flatten, flatEv, List.append_assoc]

set_option maxRecDepth 4000 in
lemma colOK_pause (st : St) (h : ColOK st) : ColOK (pause st) := by
  obtain ⟨h0, h1⟩ := h
  have hca : colAfter 0 (['\x0d', '\n'] ++ (marker ++ eraseSeq)) = 0 := by decide
  have hcm : colMax 0 (['\x0d', '\n'] ++ (marker ++ eraseSeq)) ≤ 40 := by decide
  constructor
  · rw [flatten_pause, colAfter_append, h0, hca]
  · rw [flatten_pause, colMax_append, h0]
    exact max_le h1 hcm

lemma colOK_bump (pag : Bool) (pageLines : Nat) (st : St) (line : Text)
    (h : ColOK st) (hl : line.length ≤ 40) :
    ColOK (bumpAndPage pag pageLines st line) := by
  have h1 : ColOK (bumpLine st line) := colOK_emitWln st line h hl
  unfold bumpAndPage
  split
  · exact colOK_pause _ h1
  · exact h1

/-! ## Lemmas: the pagination counter -/

lemma countWait_append (a b : List Ev) : countWait (a ++ b) = countWait a + countWait b := by
  simp [countWait, List.filter_append]

lemma inv_st0 (P : Nat) : Inv P st0 := by
  constructor <;> simp [st0, countWait]

lemma countWait_emitW (st : St) (s : Text) : countWait (emitW st s).events = countWait st.events := by
  simp [emitW, countWait_append, countWait, isWaitEv]

lemma countWait_emitWln (st : St) (s : Text) :
    countWait (emitWln st s).events = countWait st.events := by
  simp [emitWln, countWait_append, countWait, isWaitEv]

lemma inv_emitW (P : Nat) (st : St) (s : Text) (h : Inv P st) : Inv P (emitW st s) := by
  obtain ⟨h1, h2⟩ := h
  exact ⟨by rw [countWait_emitW]; exact h1, h2⟩

lemma inv_emitWln (P : Nat) (st : St) (s : Text) (h : Inv P st) : Inv P (emitWln st s) := by
  obtain ⟨h1, h2⟩ := h
  exact ⟨by rw [countWait_emitWln]; exact h1, h2⟩

lemma succ_divmod_boundary (P t : Nat) (hP : 1 ≤ P) (h : t % P = P - 1) :
    (t + 1) / P = t / P + 1 ∧ (t + 1) % P = 0 := by
  have hdm := Nat.div_add_mod t P
  have hmul : P * (t / P + 1) = P * (t / P) + P := by ring
  have ht : t + 1 = P * (t / P + 1) := by omega
  constructor
  · rw [ht, Nat.mul_div_cancel_left _ (by omega : 0 < P)]
  · rw [ht, Nat.mul_mod_right]

lemma succ_divmod_interior (P t : Nat) (h : t % P + 1 < P) :
    (t + 1) / P = t / P ∧ (t + 1) % P = t % P + 1 := by
  have hdm := Nat.div_add_mod t P
  have ht : t + 1 = t % P + 1 + P * (t / P) := by omega
  constructor
  · rw [ht, Nat.add_mul_div_left _ _ (by omega : 0 < P), Nat.div_eq_of_lt h,
      Nat.zero_add]
  · rw [ht, Nat.add_mul_mod_self_left, Nat.mod_eq_of_lt h]

lemma bumpLine_events (st : St) (line : Text) :
    (bumpLine st line).events = st.events ++ [Ev.writeln line] := rfl

lemma pause_totalInc (st : St) : (pause st).totalInc = st.totalInc := rfl

lemma pause_lineCount (st : St) : (pause st).lineCount = 0 := rfl

lemma countWait_pause (st : St) :
    countWait (pause st).events = countWait st.events + 1 := by
  simp [pause, emitW, emitWait, emitWln, countWait_append, countWait, isWaitEv,
    List.append_assoc, List.filter_append]

lemma inv_bump (P : Nat) (hP : 1 ≤ P) (st : St) (line : Text) (h : Inv P st) :
    Inv P (bumpAndPage true P st line) := by
  obtain ⟨h1, h2⟩ := h
  have hlt : st.totalInc % P < P := Nat.mod_lt _ (by omega)
  have hcw : countWait (bumpLine st line).events = countWait st.events := by
    rw [bumpLine_events, countWait_append]
    simp [countWait, isWaitEv]
  unfold bumpAndPage
  by_cases hc : P ≤ st.lineCount + 1
  · rw [if_pos ⟨rfl, hc⟩]
    have hb : st.totalInc % P = P - 1 := by omega
    obtain ⟨hd, hm⟩ := succ_divmod_boundary P st.totalInc hP hb
    constructor
    · rw [countWait_pause, hcw, pause_totalInc]
      show countWait st.events + 1 = (st.totalInc + 1) / P
      omega
    · rw [pause_lineCount, pause_totalInc]
      show (0 : Nat) = (st.totalInc + 1) % P
      omega
  · rw [if_neg (fun hand => hc hand.2)]
    obtain ⟨hd, hm⟩ := succ_divmod_interior P st.totalInc (by omega)
    constructor
    · rw [hcw]
      show countWait st.events = (st.totalInc + 1) / P
      omega
    · show st.lineCount + 1 = (st.totalInc + 1) % P
      omega

lemma inv_wrapRemaining (P : Nat) (hP : 1 ≤ P) :
    ∀ (fuel : Nat) (st : St) (cll : Nat) (remaining : Text), Inv P st →
      Inv P (wrapRemaining true P fuel st cll remaining).1 := by
  intro fuel
  induction fuel with
  | zero => intro st cll remaining h; exact h
  | succ fuel ih =>
    intro st cll remaining h
    simp only [wrapRemaining]
    split
    · exact h
    · split
      · exact inv_emitW P st remaining h
      · exact ih _ _ _ (inv_bump P hP _ [] (inv_emitW P st _ h))

lemma inv_wrapSegment (P : Nat) (hP : 1 ≤ P) :
    ∀ (fuel : Nat) (st : St) (cll : Nat) (segment : Text), Inv P st →
      Inv P (wrapSegment true P fuel st cll segment).1 := by
  intro fuel
  induction fuel with
  | zero => intro st cll segment h; exact h
  | succ fuel ih =>
    intro st cll segment h
    simp only [wrapSegment]
    split
    · exact h
    · split
      · exact inv_emitW P st _ h
      · exact ih _ _ _ (inv_bump P hP _ [] (inv_emitW P st _ h))

lemma inv_flushLoop (P : Nat) :
    ∀ (fuel : Nat) (st : St) (cll : Nat) (buffer : Text), Inv P st →
      Inv P (flushLoop fuel st cll buffer) := by
  intro fuel
  induction fuel with
  | zero => intro st cll buffer h; exact h
  | succ fuel ih =>
    intro st cll buffer h
    simp only [flushLoop]
    split
    · exact h
    · split
      · exact inv_emitW P st _ h
      · exact ih _ _ _ (inv_emitWln P _ [] (inv_emitW P st _ h))

lemma inv_processBuffer (P : Nat) (hP : 1 ≤ P) :
    ∀ (fuel : Nat) (st : St) (cll : Nat) (buffer : Text), Inv P st →
      Inv P (processBuffer true P fuel st cll buffer).1 := by
  intro fuel
  induction fuel with
  | zero => intro st cll buffer h; exact h
  | succ fuel ih =>
    intro st cll buffer h
    simp only [processBuffer]
    split
    · exact h
    · split
      · refine ih _ _ _ (inv_bump P hP _ [] ?_)
        split
        · exact inv_emitW P st _ h
        · exact inv_wrapRemaining P hP _ st _ _ h
      · split
        · exact ih _ _ _ (inv_wrapSegment P hP _ st _ _ h)
        · exact h

lemma inv_display_streaming (P : Nat) (hP : 1 ≤ P) (chunks : List Text) :
    Inv P (display_streaming true P chunks).1 := by
  unfold display_streaming
  have hfold : ∀ (cs : List Text) (a : SAcc), Inv P a.st →
      Inv P (cs.foldl (fun (a : SAcc) chunk =>
        let buffer := a.buffer ++ chunk
        let p := processBuffer true P (buffer.length + 1) a.st a.cll buffer
        ⟨p.1, p.2.1, p.2.2, a.full ++ chunk⟩) a).st := by
    intro cs
    induction cs with
    | nil => intro a h; exact h
    | cons c cs ih =>
      intro a h
      exact ih _ (inv_processBuffer P hP _ a.st a.cll _ h)
  have h1 := hfold chunks ⟨st0, 0, [], []⟩ (inv_st0 P)
  refine inv_emitWln P _ [] ?_
  split
  · exact h1
  · exact inv_flushLoop P _ _ _ _ h1

lemma inv_display_wrapped (P : Nat) (hP : 1 ≤ P) (split : Text → List Text) (text : Text) :
    Inv P (display_wrapped split text P true) ∧
      (display_wrapped split text P true).totalInc = (wrap_40 split 40 text).length := by
  unfold display_wrapped
  have hfold : ∀ (ls : List Text) (st : St), Inv P st →
      Inv P (ls.foldl (fun st line => bumpAndPage true P st line) st) ∧
        (ls.foldl (fun st line => bumpAndPage true P st line) st).totalInc
          = st.totalInc + ls.length := by
    intro ls
    induction ls with
    | nil => intro st h; exact ⟨h, by simp⟩
    | cons l ls ih =>
      intro st h
      obtain ⟨ha, hb⟩ := ih (bumpAndPage true P st l) (inv_bump P hP st l h)
      refine ⟨ha, ?_⟩
      have hinc : (bumpAndPage true P st l).totalInc = st.totalInc + 1 := by
        unfold bumpAndPage
        split <;> rfl
      simp only [List.foldl_cons]
      rw [hb, hinc, List.length_cons]
      omega
  obtain ⟨ha, hb⟩ := hfold (wrap_40 split 40 text) st0 (inv_st0 P)
  exact ⟨ha, by rw [hb]; simp [st0]⟩

/-! ## Lemmas: serial line discipline -/

lemma rlLoop_term (echo : Bool) (b : Nat) (hb : b = 0x0d ∨ b = 0x0a)
    (rest : List Nat) (buf out : Text) :
    rlLoop echo (b :: rest) buf out
      = (some buf, rest.tail, out ++ if echo then ['\x0d', '\n'] else []) := by
  simp only [rlLoop, if_pos hb]

lemma rlLoop_noTerm (echo : Bool) :
    ∀ (bytes : List Nat) (buf out : Text), (∀ b ∈ bytes, ¬(b = 0x0d ∨ b = 0x0a)) →
      (rlLoop echo bytes buf out).1 =
        if (disc bytes buf).isEmpty then none else some (disc bytes buf) := by
  intro bytes
  induction bytes with
  | nil => intro buf out _; rfl
  | cons b rest ih =>
    intro buf out h
    have hb : ¬(b = 0x0d ∨ b = 0x0a) := h b (List.mem_cons_self b rest)
    have hrest : ∀ x ∈ rest, ¬(x = 0x0d ∨ x = 0x0a) :=
      fun x hx => h x (List.mem_cons_of_mem b hx)
    simp only [rlLoop, disc, if_neg hb]
    by_cases h1 : b = 0x08 ∨ b = 0x7f
    · rw [if_pos h1, if_pos h1]
      cases buf with
      | nil =>
        rw [if_pos (by rfl)]
        exact ih [] out hrest
      | cons x xs =>
        rw [if_neg (by simp)]
        exact ih _ _ hrest
    · rw [if_neg h1, if_neg h1]
      by_cases h2 : 32 ≤ b ∧ b < 127
      · rw [if_pos h2, if_pos h2]; exact ih _ _ hrest
      · rw [if_neg h2, if_neg h2]
        by_cases h3 : 128 ≤ b
        · rw [if_pos h3, if_pos h3]; exact ih _ _ hrest
        · rw [if_neg h3, if_neg h3]; exact ih _ _ hrest

lemma rlLoop_plain (echo : Bool) :
    ∀ (cs : List Nat) (buf out : Text), (∀ b ∈ cs, 32 ≤ b ∧ b < 127) →
      (rlLoop echo (cs ++ [0x0a]) buf out).1 = some (buf ++ cs.map Char.ofNat) := by
  intro cs
  induction cs with
  | nil =>
    intro buf out _
    simp [rlLoop_term echo 0x0a (Or.inr rfl)]
  | cons c cs ih =>
    intro buf out h
    have hc := h c (List.mem_cons_self c cs)
    have hrest : ∀ b ∈ cs, 32 ≤ b ∧ b < 127 := fun b hb => h b (List.mem_cons_of_mem c hb)
    have hnt : ¬(c = 0x0d ∨ c = 0x0a) := by omega
    have hnb : ¬(c = 0x08 ∨ c = 0x7f) := by omega
    simp only [List.cons_append, List.append_eq, rlLoop, if_neg hnt, if_neg hnb, if_pos hc]
    rw [ih _ _ hrest]
    simp

lemma pyInput_plain :
    ∀ (cs : List Nat) (acc : Text), (∀ b ∈ cs, 32 ≤ b ∧ b < 127) →
      pyInput (cs ++ [0x0a]) acc = (some (acc.reverse ++ cs.map Char.ofNat), []) := by
  intro cs
  induction cs with
  | nil => intro acc _; simp [pyInput]
  | cons c cs ih =>
    intro acc h
    have hc := h c (List.mem_cons_self c cs)
    have hrest : ∀ b ∈ cs, 32 ≤ b ∧ b < 127 := fun b hb => h b (List.mem_cons_of_mem c hb)
    have h10 : ¬ c = 0x0a := by omega
    have h13 : ¬ c = 0x0d := by omega
    simp only [List.cons_append, List.append_eq, pyInput, if_neg h10, if_neg h13]
    rw [ih _ hrest]
    simp

/-! ## Lemmas: history trimming -/

lemma totalChars_cons (m : Msg) (rest : List Msg) :
    totalChars (m :: rest) = m.content.length + totalChars rest := by
  simp [totalChars]

lemma trimTurns_suffix (maxTurns : Nat) :
    ∀ (ms : List Msg), (trimTurns maxTurns ms).IsSuffix ms := by
  intro ms
  induction ms with
  | nil => exact List.suffix_refl []
  | cons m rest ih =>
    by_cases hc : maxTurns * 2 < (m :: rest).length
    · rw [trimTurns, if_pos hc]
      exact ih.trans (List.suffix_cons m rest)
    · rw [trimTurns, if_neg hc]

lemma trimTurns_len (maxTurns : Nat) :
    ∀ (ms : List Msg), (trimTurns maxTurns ms).length ≤ maxTurns * 2 := by
  intro ms
  induction ms with
  | nil => simp [trimTurns]
  | cons m rest ih =>
    by_cases hc : maxTurns * 2 < (m :: rest).length
    · rw [trimTurns, if_pos hc]; exact ih
    · rw [trimTurns, if_neg hc]; omega

lemma trimChars_suffix (maxChars : Nat) :
    ∀ (ms : List Msg) (total : Nat), (trimChars maxChars total ms).IsSuffix ms := by
  intro ms
  induction ms with
  | nil => intro total; exact List.suffix_refl []
  | cons m rest ih =>
    intro total
    by_cases hc : maxChars < total
    · rw [trimChars, if_pos hc]
      exact (ih _).trans (List.suffix_cons m rest)
    · rw [trimChars, if_neg hc]

lemma trimChars_le (maxChars : Nat) :
    ∀ (ms : List Msg) (total : Nat), total = totalChars ms →
      totalChars (trimChars maxChars total ms) ≤ maxChars := by
  intro ms
  induction ms with
  | nil => intro total _; simp [trimChars, totalChars]
  | cons m rest ih =>
    intro total htot
    rw [totalChars_cons] at htot
    by_cases hc : maxChars < total
    · rw [trimChars, if_pos hc]
      exact ih _ (by omega)
    · rw [trimChars, if_neg hc]
      rw [totalChars_cons]
      omega

lemma trim_caps (maxTurns maxChars : Nat) (ms : List Msg) :
    (trim maxTurns maxChars ms).IsSuffix ms ∧
    (trim maxTurns maxChars ms).length ≤ maxTurns * 2 ∧
    totalChars (trim maxTurns maxChars ms) ≤ maxChars := by
  unfold trim
  refine ⟨(trimChars_suffix maxChars _ _).trans (trimTurns_suffix maxTurns ms), ?_, ?_⟩
  · exact le_trans (trimChars_suffix maxChars _ _).length_le (trimTurns_len maxTurns ms)
  · exact trimChars_le maxChars _ _ rfl

/-! ## Claim theorems -/

/-- Claim C1, amended: `display_wrapped` never passes column 40 at any point of
its output — every emitted line, the pause marker and the erase sequence
included, fits in the configured width, for every input text, page height and
pagination flag.  `display_streaming` does not share this invariant (see the
counterexample): when a word-boundary flush exactly fills the line, the
appended separator space lands on column 41. -/
theorem c1_wrapped_col_bound (split : Text → List Text) (text : Text)
    (pageLines : Nat) (pag : Bool) :
    colMax 0 (flatten (display_wrapped split text pageLines pag).events) ≤ 40 := by
  have hfold : ∀ (ls : List Text) (st : St), ColOK st → (∀ l ∈ ls, l.length ≤ 40) →
      ColOK (ls.foldl (fun st line => bumpAndPage pag pageLines st line) st) := by
    intro ls
    induction ls with
    | nil => intro st h _; exact h
    | cons l ls ih =>
      intro st h hl
      exact ih _ (colOK_bump pag pageLines st l h (hl l (List.mem_cons_self l ls)))
        (fun x hx => hl x (List.mem_cons_of_mem l hx))
  exact (hfold (wrap_40 split 40 text) st0 colOK_st0 (wrap_40_bound split text)).2

set_option maxRecDepth 100000 in
/-- Claim C1, counterexample: streaming the single chunk of forty letters, a
space and one more letter makes `display_streaming` emit the forty letters plus
the separator space on one line — the output reaches column 41 > 40. -/
theorem c1_counterexample :
    colMax 0 (flatten ((display_streaming false 18 [c1Chunk]).1).events) = 41 ∧
    40 < colMax 0 (flatten ((display_streaming false 18 [c1Chunk]).1).events) := by
  constructor <;> decide

/-- Claim C2, amended: with pagination enabled and page height P ≥ 1, a display
call issues exactly floor(M/P) pause markers — not floor((M-1)/P) — where M
counts the emissions that bump `line_count` (for `display_wrapped`, M is the
total number of wrapped lines; `display_streaming` does not count the lines of
its final flush).  A pause is issued even when the last line exactly fills the
page.  The counter starts at 0 and ends at M mod P, i.e. it is reset to 0 by
every pause. -/
theorem c2_pause_count (split : Text → List Text) (text : Text) (chunks : List Text)
    (P : Nat) (hP : 1 ≤ P) :
    countWait (display_wrapped split text P true).events
        = (wrap_40 split 40 text).length / P ∧
    (display_wrapped split text P true).lineCount
        = (wrap_40 split 40 text).length % P ∧
    countWait ((display_streaming true P chunks).1).events
        = ((display_streaming true P chunks).1).totalInc / P ∧
    ((display_streaming true P chunks).1).lineCount
        = ((display_streaming true P chunks).1).totalInc % P := by
  obtain ⟨⟨h1, h2⟩, h3⟩ := inv_display_wrapped P hP split text
  obtain ⟨h4, h5⟩ := inv_display_streaming P hP chunks
  exact ⟨by rw [h1, h3], by rw [h2, h3], h4, h5⟩

theorem c2_pause_count_witness :
    1 ≤ 2 ∧
    (countWait (display_wrapped idSplit c2Text 2 true).events
        = (wrap_40 idSplit 40 c2Text).length / 2 ∧
     (display_wrapped idSplit c2Text 2 true).lineCount
        = (wrap_40 idSplit 40 c2Text).length % 2 ∧
     countWait ((display_streaming true 2 [['h', 'i', '\n']]).1).events
        = ((display_streaming true 2 [['h', 'i', '\n']]).1).totalInc / 2 ∧
     ((display_streaming true 2 [['h', 'i', '\n']]).1).lineCount
        = ((display_streaming true 2 [['h', 'i', '\n']]).1).totalInc % 2) :=
  ⟨by decide, c2_pause_count idSplit c2Text [['h', 'i', '\n']] 2 (by decide)⟩

/-- Claim C2, counterexample: two wrapped lines at page height 1 produce two
pauses, but the claimed formula floor((N-1)/P) gives 1 when N counts the
wrapped lines (N = 2) and 3 when N counts every `writeln` of the call
(N = 4, the two pause blocks each write a blank line) — neither equals 2. -/
theorem c2_counterexample :
    countWait (display_wrapped idSplit c2Text 1 true).events = 2 ∧
    countWln (display_wrapped idSplit c2Text 1 true).events = 4 ∧
    (2 - 1) / 1 = 1 ∧ (4 - 1) / 1 = 3 := by
  constructor
  · decide
  · constructor
    · decide
    · constructor <;> decide

/-- Claim C3, amended: the two `read_line` variants do not run the same
line-assembly algorithm.  The simulated variant delegates to Python `input()`,
which does no backspace processing, no echo, and ignores the timeout.  They do
agree on plain printable input terminated by a single line feed, but on the
byte sequence 41 42 7F 43 0A the serial variant applies the delete byte and
submits "AC" while the simulated variant submits "AB\x7fC". -/
theorem c3_read_line_variants (echo : Bool) :
    (∀ (cs : List Nat), (∀ b ∈ cs, 32 ≤ b ∧ b < 127) →
      (serialReadLine true echo (cs ++ [0x0a])).1 = some (cs.map Char.ofNat) ∧
      (simReadLine (cs ++ [0x0a])).1 = some (cs.map Char.ofNat)) ∧
    (serialReadLine true true c3Bytes).1 = some ['A', 'C'] ∧
    (simReadLine c3Bytes).1 = some ['A', 'B', '\x7f', 'C'] := by
  refine ⟨?_, by decide, by decide⟩
  intro cs h
  constructor
  · show (rlLoop echo (cs ++ [0x0a]) [] []).1 = _
    rw [rlLoop_plain echo cs [] [] h]
    simp
  · show (pyInput (cs ++ [0x0a]) []).1 = _
    rw [pyInput_plain cs [] h]
    simp

theorem c3_read_line_variants_witness :
    (∀ b ∈ [(0x41 : Nat)], 32 ≤ b ∧ b < 127) ∧
    ((serialReadLine true true ([0x41] ++ [0x0a])).1 = some ([(0x41 : Nat)].map Char.ofNat) ∧
     (simReadLine ([0x41] ++ [0x0a])).1 = some ([(0x41 : Nat)].map Char.ofNat)) :=
  ⟨by decide, (c3_read_line_variants true).1 [0x41] (by decide)⟩

/-- Claim C3, counterexample: on the concrete byte sequence 41 42 7F 43 0A the
two variants submit different logical lines. -/
theorem c3_counterexample :
    (serialReadLine true true c3Bytes).1 ≠ (simReadLine c3Bytes).1 := by
  decide

/-- Claim C4, amended: the physical (serial) variant is a no-op returning a
failure value on every write and read when not open — it emits nothing on the
wire and consumes nothing.  The simulated variant does not satisfy the
invariant: its `write` prints and its `read_byte` consumes stdin regardless of
the open flag (see the counterexample). -/
theorem c4_serial_closed_noop (t : Text) (bytes : List Nat) (echo : Bool) :
    serialWrite false t = [] ∧
    serialWriteln false t = [] ∧
    serialReadByte false bytes = (none, bytes) ∧
    serialReadLine false echo bytes = (none, bytes, []) :=
  ⟨rfl, rfl, rfl, rfl⟩

/-- Claim C4, counterexample: a closed simulated transport still writes to its
underlying channel, and its `read_byte` still consumes pending input. -/
theorem c4_counterexample :
    simWrite false ['x'] = ['x'] ∧ simWrite false ['x'] ≠ [] ∧
    simReadByte false [0x41] = (some 0x41, []) := by
  refine ⟨by decide, by decide, by decide⟩

/-- Claim C5: a terminator byte arriving on an empty buffer submits the empty
string, while an elapsed deadline returns the accumulated buffer when it is
non-empty and otherwise signals no input (`none`, distinct from `some ""`). -/
theorem c5_empty_line_vs_no_input (echo : Bool) :
    (∀ (b : Nat) (rest : List Nat) (out : Text), (b = 0x0d ∨ b = 0x0a) →
      (rlLoop echo (b :: rest) [] out).1 = some []) ∧
    (∀ (bytes : List Nat), (∀ b ∈ bytes, ¬(b = 0x0d ∨ b = 0x0a)) →
      (serialReadLine true echo bytes).1 =
        if (disc bytes []).isEmpty then none else some (disc bytes [])) := by
  constructor
  · intro b rest out hb
    rw [rlLoop_term echo b hb rest [] out]
  · intro bytes h
    show (rlLoop echo bytes [] []).1 = _
    exact rlLoop_noTerm echo bytes [] [] h

theorem c5_empty_line_vs_no_input_witness :
    ((0x0d : Nat) = 0x0d ∨ (0x0d : Nat) = 0x0a) ∧
    (rlLoop true [0x0d] [] []).1 = some [] ∧
    (∀ b ∈ [(0x41 : Nat)], ¬(b = 0x0d ∨ b = 0x0a)) ∧
    (serialReadLine true true [0x41]).1 =
      (if (disc [0x41] []).isEmpty then none else some (disc [0x41] [])) :=
  ⟨Or.inl rfl, (c5_empty_line_vs_no_input true).1 0x0d [] [] (Or.inl rfl),
   by decide, (c5_empty_line_vs_no_input true).2 [0x41] (by decide)⟩

/-- Claim C6: a backspace or delete byte on an empty buffer is a no-op (no
buffer change and no echo), on a non-empty buffer it removes exactly the last
character and echoes backspace-space-backspace; and the bytes
41 42 7F 43 0D with echo yield the line "AC" with echo A, B, erase, C. -/
theorem c6_backspace :
    (∀ (echo : Bool) (b : Nat) (rest : List Nat) (out : Text), (b = 0x08 ∨ b = 0x7f) →
      rlLoop echo (b :: rest) [] out = rlLoop echo rest [] out) ∧
    (∀ (echo : Bool) (b : Nat) (rest : List Nat) (out buf : Text) (c : Char),
      (b = 0x08 ∨ b = 0x7f) →
      rlLoop echo (b :: rest) (buf ++ [c]) out
        = rlLoop echo rest buf (out ++ if echo then bsSeq else [])) ∧
    serialReadLine true true c6Bytes
      = (some ['A', 'C'], [], ['A', 'B', '\x08', ' ', '\x08', 'C', '\x0d', '\n']) := by
  refine ⟨?_, ?_, by decide⟩
  · intro echo b rest out hb
    rcases hb with rfl | rfl <;> simp [rlLoop]
  · intro echo b rest out buf c hb
    rcases hb with rfl | rfl <;> simp [rlLoop, List.dropLast_concat]

theorem c6_backspace_witness :
    ((0x7f : Nat) = 0x08 ∨ (0x7f : Nat) = 0x7f) ∧
    rlLoop true [0x7f] [] [] = rlLoop true [] [] [] ∧
    rlLoop true [0x7f] ([] ++ ['A']) [] = rlLoop true [] [] ([] ++ if true then bsSeq else []) :=
  ⟨Or.inr rfl, c6_backspace.1 true 0x7f [] [] (Or.inr rfl),
   c6_backspace.2.1 true 0x7f [] [] [] 'A' (Or.inr rfl)⟩

/-- Claim C7: after a terminator, exactly one further byte is read in the short
peek window and consumed whatever it is — a paired terminator is absorbed, and
any other byte is discarded without being re-queued, so it is never delivered
as part of any subsequent line (the leftover queue is exactly `rest`). -/
theorem c7_terminator_peek (echo : Bool) (buf out : Text) (b nb : Nat) (rest : List Nat)
    (hb : b = 0x0d ∨ b = 0x0a) :
    rlLoop echo (b :: nb :: rest) buf out
      = (some buf, rest, out ++ if echo then ['\x0d', '\n'] else []) := by
  rw [rlLoop_term echo b hb (nb :: rest) buf out]
  rfl

theorem c7_terminator_peek_witness :
    ((0x0d : Nat) = 0x0d ∨ (0x0d : Nat) = 0x0a) ∧
    rlLoop true [0x0d, 0x41, 0x42] [] []
      = (some [], [0x42], [] ++ if true then ['\x0d', '\n'] else []) :=
  ⟨Or.inl rfl, c7_terminator_peek true [] [] 0x0d 0x41 [0x42] (Or.inl rfl)⟩

/-- Claim C8: `_trim` only removes messages from the front (the result is a
suffix of the input, so the relative order of the survivors is preserved), and
after trimming both caps hold: at most `max_turns` pairs and at most
`max_chars` content characters; since `add` and `load` both end with `_trim`,
both caps hold after any add or load. -/
theorem c8_history_trim (maxTurns maxChars : Nat) (ms : List Msg) (role content : Text) :
    (trim maxTurns maxChars ms).IsSuffix ms ∧
    (trim maxTurns maxChars ms).length ≤ maxTurns * 2 ∧
    totalChars (trim maxTurns maxChars ms) ≤ maxChars ∧
    (addMsg maxTurns maxChars ms role content).IsSuffix (ms ++ [⟨role, content⟩]) ∧
    (addMsg maxTurns maxChars ms role content).length ≤ maxTurns * 2 ∧
    totalChars (addMsg maxTurns maxChars ms role content) ≤ maxChars := by
  obtain ⟨h1, h2, h3⟩ := trim_caps maxTurns maxChars ms
  obtain ⟨h4, h5, h6⟩ := trim_caps maxTurns maxChars (ms ++ [⟨role, content⟩])
  exact ⟨h1, h2, h3, h4, h5, h6⟩

/-- Claim C9: a 45-character unbroken token wrapped at width 40 is hard-split
into the 40-character prefix and the 5-character remainder, with no hyphen
inserted; and in general, when no chunk exceeds the width, every emitted line
is assembled from whole chunks — no word is ever broken. -/
theorem c9_hard_split :
    (∀ split : Text → List Text, split tok45 = [tok45] →
      wrap_40 split 40 tok45 = [tok40, tok5]) ∧
    (∀ (width : Nat) (chunks : List Text), (∀ c ∈ chunks, c.length ≤ width) →
      ∀ line ∈ wrapChunksL width chunks, ∀ s ∈ line, s ∈ chunks) := by
  constructor
  · intro split hs
    have h1 : splitNL tok45 = [tok45] := by decide
    unfold wrap_40
    rw [h1]
    simp only [List.foldl_cons, List.foldl_nil]
    rw [hs]
    decide
  · intro width chunks h line hl s hs
    exact wrapGo_mem width chunks h (chunkMass chunks + 1) chunks []
      (fun c hc => hc) (by simp) line hl s hs

theorem c9_hard_split_witness :
    (idSplit tok45 = [tok45] ∧ wrap_40 idSplit 40 tok45 = [tok40, tok5]) ∧
    ((∀ c ∈ [['a']], c.length ≤ 1) ∧
      ∀ line ∈ wrapChunksL 1 [['a']], ∀ s ∈ line, s ∈ [['a']]) :=
  ⟨⟨rfl, c9_hard_split.1 idSplit rfl⟩,
   ⟨by decide, c9_hard_split.2 1 [['a']] (by decide)⟩⟩

/-- Claim C10: `get_messages` allocates a fresh list object with the stored
messages; the call leaves the store's own list untouched, and any in-place
mutation of the returned object leaves the store's message history unchanged. -/
theorem c10_get_messages_fresh (h : Heap) (s : HStore) (f : List Msg → List Msg)
    (hwf : s.msgsRef < h.next) :
    (get_messages s h).1 ≠ s.msgsRef ∧
    ((get_messages s h).2).vals (get_messages s h).1 = h.vals s.msgsRef ∧
    ((get_messages s h).2).vals s.msgsRef = h.vals s.msgsRef ∧
    (heapWrite (get_messages s h).2 (get_messages s h).1 f).vals s.msgsRef
      = h.vals s.msgsRef := by
  have hne : s.msgsRef ≠ h.next := Nat.ne_of_lt hwf
  refine ⟨?_, ?_, ?_, ?_⟩
  · show h.next ≠ s.msgsRef
    omega
  all_goals simp [get_messages, alloc, heapWrite, hne]

theorem c10_get_messages_fresh_witness :
    (0 : Nat) < 1 ∧
    ((get_messages ⟨0⟩ ⟨1, fun _ => []⟩).1 ≠ 0 ∧
     ((get_messages ⟨0⟩ ⟨1, fun _ => []⟩).2).vals (get_messages ⟨0⟩ ⟨1, fun _ => []⟩).1
        = Heap.vals ⟨1, fun _ => []⟩ 0 ∧
     ((get_messages ⟨0⟩ ⟨1, fun _ => []⟩).2).vals 0 = Heap.vals ⟨1, fun _ => []⟩ 0 ∧
     (heapWrite (get_messages ⟨0⟩ ⟨1, fun _ => []⟩).2
         (get_messages ⟨0⟩ ⟨1, fun _ => []⟩).1
         (fun l => ⟨[], []⟩ :: l)).vals 0
        = Heap.vals ⟨1, fun _ => []⟩ 0) :=
  ⟨by decide, c10_get_messages_fresh ⟨1, fun _ => []⟩ ⟨0⟩ (fun l => ⟨[], []⟩ :: l) (by decide)⟩

end MinitelGPT
